import Mathlib

/-!
Verification development for the OMF/AAF media validator
(`src/media_validator.py`).

The embedding models the validator's data model (`MediaClip`,
`ValidationReport`), its validation pass (`validate_omf_aaf_media`,
lines 905-997), the legacy (OMF) path scanner (`_extract_omf_file_paths`,
lines 581-792), the aggressive fallback (`_aggressive_omf_parse`, lines
812-902), the OMF timeline reconstructor (`_extract_timeline_clips_from_omf`,
lines 1265-1364), the heuristic path filter (`_is_valid_path_string`, lines
613-641), the embedded/external classification of the graph walker
(`_extract_clips_from_segment`, lines 344-425), and the name-matching logic
(lines 1194-1208).

Strings are modelled as `List Char` (the validator runs on a POSIX system,
so `os.path` is modelled as `posixpath`).  The filesystem is an abstract
read-only oracle (`FS`).  Ratio checks written with Python floats
(`len(s) * 0.7` etc.) are modelled with exact integer arithmetic
(`* 10 < * 7`); for all realistic lengths the two semantics agree because
the compared counts are integers and the float error is far below 1/10.
-/

/-- Python strings, modelled as lists of characters. -/
abbrev PStr := List Char

/-- `posixpath.isabs`: a path is absolute iff it starts with a slash. -/
def isabs : PStr → Bool
  | [] => false
  | c :: _ => c = '/'

/-- Python `str.split('/')`: always returns at least one (possibly empty)
piece; adjacent separators produce empty pieces. -/
def splitSlash : PStr → List PStr
  | [] => [[]]
  | c :: rest =>
    if c = '/' then [] :: splitSlash rest
    else
      match splitSlash rest with
      | h :: t => (c :: h) :: t
      | [] => [[c]]

/-- `'/'.join(pieces)` for `posixpath.normpath`. -/
def intercalateSlash : List PStr → PStr
  | [] => []
  | [p] => p
  | p :: rest => p ++ '/' :: intercalateSlash rest

/-- The component `".."`. -/
def ddComp : PStr := ['.', '.']

/-- One iteration of the component loop of `posixpath.normpath`:
skip `""` and `"."`; push any other component unless it is `".."` that
cancels against a previous real component.  `stack` holds the collected
components in reverse (head = most recent). -/
def normStep (initial : Bool) (stack : List PStr) (comp : PStr) : List PStr :=
  if comp = [] ∨ comp = ['.'] then stack
  else if comp ≠ ddComp ∨ (initial = false ∧ stack = []) ∨ stack.head? = some ddComp then
    comp :: stack
  else stack.tail

/-- The processed component list of `posixpath.normpath`, in order. -/
def normComps (initial : Bool) (comps : List PStr) : List PStr :=
  (comps.foldl (normStep initial) []).reverse

/-- `path.startswith('//') and not path.startswith('///')` (POSIX keeps a
double slash, per the normpath source). -/
def dslash : PStr → Bool
  | c1 :: c2 :: c3 :: _ => c1 = '/' ∧ c2 = '/' ∧ c3 ≠ '/'
  | [c1, c2] => c1 = '/' ∧ c2 = '/'
  | _ => false

/-- `posixpath.normpath`. -/
def normpath (p : PStr) : PStr :=
  if p = [] then ['.']
  else
    let initial := isabs p
    let comps := normComps initial (splitSlash p)
    let body := intercalateSlash comps
    let r := (if initial then (if dslash p then ['/', '/'] else ['/']) else []) ++ body
    if r = [] then ['.'] else r

/-- `s.rfind(c)`: index of the last occurrence of `c`, if any. -/
def rfindChar (c : Char) : PStr → Option Nat
  | [] => none
  | x :: xs =>
    match rfindChar c xs with
    | some i => some (i + 1)
    | none => if x = c then some 0 else none

/-- `posixpath.basename`: everything after the last slash. -/
def basename (p : PStr) : PStr :=
  match rfindChar '/' p with
  | none => p
  | some i => p.drop (i + 1)

/-- Drop trailing slashes (`head.rstrip('/')` in `posixpath.dirname`). -/
def rstripSlash (p : PStr) : PStr :=
  (p.reverse.dropWhile (fun c => c = '/')).reverse

/-- `posixpath.dirname`. -/
def dirname (p : PStr) : PStr :=
  match rfindChar '/' p with
  | none => []
  | some i =>
    let head := p.take (i + 1)
    if head ≠ [] ∧ ¬ head.all (fun c => c = '/') then rstripSlash head else head

/-- `posixpath.join` for two arguments. -/
def joinPath (a b : PStr) : PStr :=
  if isabs b then b
  else if a = [] ∨ a.getLast? = some '/' then a ++ b
  else a ++ '/' :: b

/-- `posixpath.abspath`, with the working directory passed explicitly. -/
def abspath (cwd p : PStr) : PStr :=
  normpath (if isabs p then p else joinPath cwd p)

/-- `posixpath.splitext`: split off the extension at the last dot of the
final component, unless that component consists only of leading dots. -/
def splitext (p : PStr) : PStr × PStr :=
  match rfindChar '.' p with
  | none => (p, [])
  | some d =>
    let s1 := match rfindChar '/' p with
      | none => 0
      | some s => s + 1
    if s1 ≤ d then
      if ((p.drop s1).take (d - s1)).any (fun c => c ≠ '.') then
        (p.take d, p.drop d)
      else (p, [])
    else (p, [])

/-- ASCII lower-casing of one character (`str.lower` on the ASCII range). -/
def lowerChar (c : Char) : Char :=
  if 65 ≤ c.toNat ∧ c.toNat ≤ 90 then Char.ofNat (c.toNat + 32) else c

/-- `str.lower` (ASCII fragment). -/
def lowerStr (s : PStr) : PStr := s.map lowerChar

/-- ASCII whitespace recognised by `str.strip()`. -/
def pyIsSpace (c : Char) : Bool :=
  c = ' ' ∨ c = '\t' ∨ c = '\n' ∨ c = '\r' ∨ c = '\x0b' ∨ c = '\x0c'

/-- `str.strip()` (ASCII fragment). -/
def stripStr (s : PStr) : PStr :=
  ((s.dropWhile pyIsSpace).reverse.dropWhile pyIsSpace).reverse

/-- Python truthiness of an optional string: `None` and `""` are falsy. -/
def pyTruthy : Option PStr → Bool
  | none => false
  | some [] => false
  | some (_ :: _) => true

/-! ## Data model (`MediaClip`, `ValidationReport`, lines 43-76) -/

/-- `MediaClip` (lines 43-58), with the Python field defaults. -/
structure MediaClip where
  name : PStr
  clip_id : Option PStr := none
  is_embedded : Bool := false
  external_path : Option PStr := none
  is_valid : Bool := true
  error_message : Option PStr := none
  track_index : Nat := 0
  timeline_start : ℚ := 0
  timeline_end : ℚ := 0
  name_matches_file : Option Bool := none
  expected_filename : Option PStr := none
deriving DecidableEq

/-- `ValidationReport` (lines 61-76). -/
structure ValidationReport where
  total_clips : Nat
  embedded_clips : Nat
  linked_clips : Nat
  missing_clips : Nat
  valid_clips : Nat
  missing_clip_details : List MediaClip
  file_path : PStr
  timeline_clips : List MediaClip
  total_duration : ℚ
deriving DecidableEq

/-- Read-only filesystem oracle (`os.path.exists`, `os.path.isfile`,
`os.path.getsize`); `getsize` is in bytes and modelled total. -/
structure FS where
  pathExists : PStr → Bool
  isFile : PStr → Bool
  getsize : PStr → Nat

/-! ## Validation pass (`validate_embedded_media`, `validate_omf_aaf_media`) -/

/-- `validate_embedded_media` (lines 3195-3219): unconditionally reports
embedded media as valid. -/
def validate_embedded_media (_clip : MediaClip) : Bool := true

def embeddedInvalidMsg : PStr := "Embedded media data is missing or corrupted".toList

def noPathMsg : PStr := "No external file path specified for linked media".toList

def notFoundMsg (p : PStr) : PStr := "External media file not found: ".toList ++ p

def notFileMsg (p : PStr) : PStr := "External path exists but is not a file: ".toList ++ p

/-- The per-clip branch structure of the validation loop
(`validate_omf_aaf_media`, lines 946-968): `some msg` exactly when the loop
invalidates the clip and appends it to `missing_clips`. -/
def clipInvalidReason (fs : FS) (c : MediaClip) : Option PStr :=
  if c.is_embedded then
    if validate_embedded_media c then none else some embeddedInvalidMsg
  else if ¬ pyTruthy c.external_path then some noPathMsg
  else
    let p := c.external_path.getD []
    if ¬ fs.pathExists p then some (notFoundMsg p)
    else if ¬ fs.isFile p then some (notFileMsg p)
    else none

/-- The mutation the validation loop applies to one clip. -/
def validateClip (fs : FS) (c : MediaClip) : MediaClip :=
  match clipInvalidReason fs c with
  | none => c
  | some m => { c with is_valid := false, error_message := some m }

/-- The `missing_clips` list accumulated by the loop: exactly the clips the
loop invalidated, in order, in their mutated state. -/
def missingClipDetails (fs : FS) (clips : List MediaClip) : List MediaClip :=
  (clips.filter (fun c => (clipInvalidReason fs c).isSome)).map (validateClip fs)

/-- Report assembly (lines 970-997).  The counts are computed over the
clip list after the validation loop mutated it; the timeline pair is
computed separately (`_extract_timeline_clips_from_aaf/omf`) and passed in. -/
def buildReport (fs : FS) (filePath : PStr) (all_clips : List MediaClip)
    (timeline : List MediaClip) (totalDur : ℚ) : ValidationReport :=
  let validated := all_clips.map (validateClip fs)
  { total_clips := validated.length
    embedded_clips := (validated.filter (fun c => c.is_embedded)).length
    linked_clips := (validated.filter (fun c => !c.is_embedded)).length
    missing_clips := (missingClipDetails fs all_clips).length
    valid_clips := (validated.filter (fun c => c.is_valid)).length
    missing_clip_details := missingClipDetails fs all_clips
    file_path := filePath
    timeline_clips := timeline
    total_duration := totalDur }

/-! ## Legacy (OMF) scanner (`_extract_omf_file_paths`, lines 581-792) -/

/-- Candidate resolution of strategy A (lines 676-691): join a relative
candidate with the base directory; if the joined path exists use it,
else retry with the normalized candidate, else keep the normalized
literal candidate.  Absolute candidates are normalized as-is. -/
def resolveOmfCandidateM1 (fs : FS) (base_dir cand : PStr) : PStr :=
  if ¬ isabs cand then
    let resolved := joinPath base_dir cand
    if fs.pathExists resolved then normpath resolved
    else
      let normalized := normpath cand
      let resolved2 := joinPath base_dir normalized
      if fs.pathExists resolved2 then normpath resolved2
      else normpath cand
  else normpath cand

/-- Candidate resolution of strategies B and C (lines 727-734 and 767-774):
like strategy A but without the second (re-normalized) join attempt. -/
def resolveOmfCandidateM23 (fs : FS) (base_dir cand : PStr) : PStr :=
  if ¬ isabs cand then
    let resolved := joinPath base_dir cand
    if fs.pathExists resolved then normpath resolved
    else normpath cand
  else normpath cand

/-- Which of the three byte-pattern strategies produced a candidate. -/
inductive ScanMethod where
  | m1
  | m23
deriving DecidableEq

/-- One observable event of the scanning body inside the `try` of
`_extract_omf_file_paths` (lines 596-777): either one decoded and
heuristically validated candidate is appended (`found`), or an exception
is raised at that point of the body (`exc`).  The single `except` clause
(lines 779-781) swallows the exception, keeping whatever was already
appended. -/
inductive ScanEvent where
  | found (m : ScanMethod) (cand : PStr)
  | exc
deriving DecidableEq

/-- Resolve one found candidate with the strategy's resolution rule. -/
def resolveScanEvent (fs : FS) (base_dir : PStr) : ScanMethod → PStr → PStr
  | ScanMethod.m1, cand => resolveOmfCandidateM1 fs base_dir cand
  | ScanMethod.m23, cand => resolveOmfCandidateM23 fs base_dir cand

/-- Run the scanning body: resolve candidates in order, stopping at the
first exception (everything appended before it is kept; the `except
Exception: pass` drops only the remainder of the body). -/
def collectScanPaths (fs : FS) (base_dir : PStr) : List ScanEvent → List PStr
  | [] => []
  | ScanEvent.exc :: _ => []
  | ScanEvent.found m cand :: rest =>
    resolveScanEvent fs base_dir m cand :: collectScanPaths fs base_dir rest

/-- Order-preserving deduplication by normalized path (lines 783-791). -/
def dedupNormpath (l : List PStr) : List PStr :=
  l.foldl (fun acc p => let n := normpath p; if n ∈ acc then acc else acc ++ [n]) []

/-- `_extract_omf_file_paths` (lines 581-792), over the abstract event
sequence of its scanning body: paths found before the first exception,
deduplicated by normalized path.  Exceptions never propagate. -/
def extractOmfFilePaths (fs : FS) (base_dir : PStr) (events : List ScanEvent) : List PStr :=
  dedupNormpath (collectScanPaths fs base_dir events)

/-- 100 MB read cap of `_extract_omf_file_paths` (line 602). -/
def MAX_FILE_SIZE : Nat := 100 * 1024 * 1024

/-- 50 MB window read for large files (line 606). -/
def EXTRACT_WINDOW : Nat := 50 * 1024 * 1024

/-- The bytes `_extract_omf_file_paths` actually reads (lines 597-609):
the whole file, or only the first 50 MB when the file exceeds 100 MB. -/
def omfExtractionData (content : List Nat) : List Nat :=
  if content.length > MAX_FILE_SIZE then content.take EXTRACT_WINDOW else content

/-- `_extract_omf_essence_references` (lines 795-809): a stub that always
returns the empty list. -/
def extractOmfEssenceReferences : List MediaClip := []

/-- The audio extensions recognised when turning scanned paths into clips
(line 524). -/
def omfAudioExtensions : List PStr :=
  [".wav".toList, ".aif".toList, ".aiff".toList, ".mp3".toList,
   ".m4a".toList, ".caf".toList, ".sd2".toList]

def audioClipFallbackName (counter : Nat) : PStr :=
  "Audio Clip ".toList ++ Nat.toDigits 10 counter

def omfClipId (counter : Nat) : PStr :=
  "omf_clip_".toList ++ Nat.toDigits 10 counter

/-- The loop of `_parse_omf_file` that turns scanned file paths into clips
(lines 515-543): skip falsy and already-processed paths; keep paths with
an audio extension or no extension; clips are external (`is_embedded =
False`) and carry the scanned path verbatim. -/
def omfClipsFromPaths : List PStr → List PStr → Nat → List MediaClip
  | [], _, _ => []
  | p :: rest, processed, counter =>
    if p ≠ [] ∧ p ∉ processed then
      let ext := lowerStr (splitext p).2
      if ext ∈ omfAudioExtensions ∨ ext = [] then
        { name := if basename p ≠ [] then basename p else audioClipFallbackName counter
          clip_id := some (omfClipId counter)
          is_embedded := false
          external_path := some p } :: omfClipsFromPaths rest (p :: processed) (counter + 1)
      else omfClipsFromPaths rest (p :: processed) counter
    else omfClipsFromPaths rest processed counter

/-! ## Aggressive fallback (`_aggressive_omf_parse`, lines 812-902) -/

def audioReferenceName (counter : Nat) : PStr :=
  "Audio Reference ".toList ++ Nat.toDigits 10 counter

def omfRefId (counter : Nat) : PStr :=
  "omf_ref_".toList ++ Nat.toDigits 10 counter

/-- Decode attempts for one aggressive-scan regex match (lines 873-895):
take the first decoding that is longer than 4 characters and contains a
path separator. -/
def aggressiveCandOfMatch : List PStr → Option PStr
  | [] => none
  | d :: rest =>
    if d.length > 4 ∧ ('\\' ∈ d ∨ '/' ∈ d) then some d
    else aggressiveCandOfMatch rest

/-- The match loop of `_aggressive_omf_parse` (lines 851-897): each match
is its list of candidate decodings; at most 1000 clips are emitted
(`clip_counter > max_clips` breaks at the top of the loop); relative
candidates are joined with the base directory (no normalization); every
emitted clip is external. -/
def aggressiveLoop (base_dir : PStr) : List (List PStr) → Nat → List MediaClip
  | [], _ => []
  | m :: rest, counter =>
    if counter > 1000 then []
    else
      match aggressiveCandOfMatch m with
      | none => aggressiveLoop base_dir rest counter
      | some path_str =>
        let resolved := if ¬ isabs path_str then joinPath base_dir path_str else path_str
        { name := if basename path_str ≠ [] then basename path_str
                  else audioReferenceName counter
          clip_id := some (omfRefId counter)
          is_embedded := false
          external_path := some resolved } :: aggressiveLoop base_dir rest (counter + 1)

/-- `_aggressive_omf_parse` (lines 812-902), over the abstract list of
regex matches (each given as its candidate decodings). -/
def aggressiveOmfParse (base_dir : PStr) (ms : List (List PStr)) : List MediaClip :=
  aggressiveLoop base_dir ms 1

/-! ## `_parse_omf_file` size gate (lines 468-477) -/

/-- The errors `_parse_omf_file` can raise; the 200 MB cap raises the
`FileTooLarge` condition of the spec (a `ValueError` in the source). -/
inductive OmfError where
  | fileTooLarge
deriving DecidableEq

/-- 200 MB hard limit (line 474). -/
def MAX_OMF_SIZE : Nat := 200 * 1024 * 1024

/-- `_parse_omf_file` (lines 445-578): the size gate runs first; only
below the cap does the function scan for paths, build clips, and fall
back to the aggressive parse when no clip was found.  The scan outcome
is abstracted by the event list and the aggressive matches. -/
def parseOmfFile (fs : FS) (fileSize : Nat) (base_dir : PStr)
    (events : List ScanEvent) (ms : List (List PStr)) :
    Except OmfError (List MediaClip) :=
  if fileSize > MAX_OMF_SIZE then Except.error OmfError.fileTooLarge
  else
    let file_paths := extractOmfFilePaths fs base_dir events
    let clips := omfClipsFromPaths file_paths [] 1 ++ extractOmfEssenceReferences
    Except.ok (if clips = [] then aggressiveOmfParse base_dir ms else clips)

/-! ## Name matching (lines 1194-1208 and 1323-1330) -/

/-- Normalize a name for matching: strip the extension, lower-case,
strip whitespace (`os.path.splitext(x)[0].lower().strip()`). -/
def nameBase (s : PStr) : PStr := stripStr (lowerStr (splitext s).1)

/-- The shared comparison: clip display name vs. file base name. -/
def nameBaseEq (clipName fileName : PStr) : Bool := nameBase clipName = nameBase fileName

/-- Name-matching of the AAF timeline walker (lines 1194-1208): compare
only when the matched validation clip has a truthy external path; embedded
or path-less clips yield `None`. -/
def aafNameMatch (clip_name : PStr) (matched : Option MediaClip) :
    Option Bool × Option PStr :=
  match matched with
  | none => (none, none)
  | some m =>
    if pyTruthy m.external_path then
      let expected_filename := basename (m.external_path.getD [])
      (some (nameBaseEq clip_name expected_filename), some expected_filename)
    else if m.is_embedded then (none, none)
    else (none, none)

/-! ## OMF timeline reconstructor (`_extract_timeline_clips_from_omf`,
lines 1265-1364) -/

def omfTimelineId (i : Nat) : PStr := "omf_timeline_".toList ++ Nat.toDigits 10 i

/-- Estimated clip duration (lines 1304-1318): file size at an assumed
192000 bytes/sec, floored at 1 second, when the clip has a truthy external
path that exists; 5 seconds otherwise. -/
def omfEstimatedDuration (fs : FS) (c : MediaClip) : ℚ :=
  if pyTruthy c.external_path ∧ fs.pathExists (c.external_path.getD []) then
    max 1 ((fs.getsize (c.external_path.getD []) : ℚ) / 192000)
  else 5

/-- The name-match pair computed for one OMF timeline clip
(lines 1323-1330). -/
def omfNameMatch (c : MediaClip) : Option Bool × Option PStr :=
  if pyTruthy c.external_path then
    (some (nameBaseEq c.name (basename (c.external_path.getD []))),
     some (basename (c.external_path.getD [])))
  else (none, none)

/-- The timeline clip built for validation clip `c` at loop index `i`
with time cursor `cur` (lines 1320-1344). -/
def omfTimelineClip (fs : FS) (c : MediaClip) (i : Nat) (cur : ℚ) : MediaClip :=
  { name := c.name
    clip_id := if pyTruthy c.clip_id then c.clip_id else some (omfTimelineId i)
    is_embedded := c.is_embedded
    external_path := c.external_path
    is_valid := c.is_valid
    track_index := i / 10
    timeline_start := cur
    timeline_end := cur + omfEstimatedDuration fs c
    name_matches_file := (omfNameMatch c).1
    expected_filename := (omfNameMatch c).2 }

/-- The loop of `_extract_timeline_clips_from_omf` (lines 1300-1353):
`i` is the running index, `cur` the per-track time cursor, `tot` the
running maximum end time. -/
def omfTimelineLoop (fs : FS) : List MediaClip → Nat → ℚ → ℚ → List MediaClip × ℚ
  | [], _, _, tot => ([], tot)
  | c :: rest, i, cur, tot =>
    let clip_end := cur + omfEstimatedDuration fs c
    let res := omfTimelineLoop fs rest (i + 1)
      (if (i + 1) % 10 = 0 then 0 else clip_end) (max tot clip_end)
    (omfTimelineClip fs c i cur :: res.1, res.2)

/-- `_extract_timeline_clips_from_omf` (lines 1265-1364): run the loop from
index 0, cursor 0; if clips were found but the total duration is still 0,
fall back to 5 seconds per clip (lines 1356-1358). -/
def extractTimelineClipsFromOmf (fs : FS) (validation_clips : List MediaClip) :
    List MediaClip × ℚ :=
  let res := omfTimelineLoop fs validation_clips 0 0 0
  if res.1 ≠ [] ∧ res.2 = 0 then (res.1, (res.1.length : ℚ) * 5) else res

/-- The OMF arm of `validate_omf_aaf_media` after parsing (lines 944-997):
validate every clip, then reconstruct the timeline from the mutated clip
list, then assemble the report. -/
def validateOmfMedia (fs : FS) (filePath : PStr) (all_clips : List MediaClip) :
    ValidationReport :=
  let validated := all_clips.map (validateClip fs)
  let tl := extractTimelineClipsFromOmf fs validated
  buildReport fs filePath all_clips tl.1 tl.2

/-! ## Heuristic path filter (`_is_valid_path_string`, lines 613-641) -/

/-- CPython `str.isprintable` on the ASCII range (the scanner's decoded
candidates; codepoints 0x20-0x7e). -/
def pyIsPrintable (c : Char) : Bool := 32 ≤ c.toNat ∧ c.toNat ≤ 126

/-- The three control characters the filter allows (line 620). -/
def allowedWs (c : Char) : Bool := c = '\n' ∨ c = '\r' ∨ c = '\t'

/-- CPython `str.isalnum` on the ASCII range. -/
def pyIsAlnum (c : Char) : Bool :=
  (48 ≤ c.toNat ∧ c.toNat ≤ 57) ∨ (65 ≤ c.toNat ∧ c.toNat ≤ 90) ∨
  (97 ≤ c.toNat ∧ c.toNat ≤ 122)

/-- Characters accepted in a filename by the filter (line 632). -/
def filenameOkChar (c : Char) : Bool :=
  pyIsAlnum c ∨ c = ' ' ∨ c = '.' ∨ c = '-' ∨ c = '_' ∨ c = '(' ∨ c = ')' ∨
  c = '[' ∨ c = ']'

/-- Control characters counted by the filter (line 625): codepoint below
32, excluding the three allowed ones. -/
def controlCharB (c : Char) : Bool := c.toNat < 32 ∧ ¬ allowedWs c

/-- Printable count of line 620 (printable, or one of `\n\r\t`). -/
def printableCount (s : PStr) : Nat :=
  (s.filter (fun c => pyIsPrintable c ∨ allowedWs c)).length

/-- Control count of line 625. -/
def controlCount (s : PStr) : Nat := (s.filter controlCharB).length

/-- Valid-filename-character count of line 632. -/
def validFilenameCount (s : PStr) : Nat := (s.filter filenameOkChar).length

/-- `_is_valid_path_string` (lines 613-641).  The float thresholds
(`0.7`, `0.1`, `0.6`) are modelled exactly with integer scaling. -/
def isValidPathString (s : PStr) : Bool :=
  if s = [] ∨ s.length < 4 then false
  else if printableCount s * 10 < s.length * 7 then false
  else if controlCount s * 10 > s.length then false
  else
    let filename := basename s
    if validFilenameCount filename * 10 < filename.length * 6 then false
    else
      let ext := (splitext filename).2
      if ext ≠ [] ∧ (ext.length > 10 ∨ (ext.drop 1).all pyIsAlnum = false) then false
      else true

/-! ## Graph-walker classification (`_extract_clips_from_segment`,
lines 344-425) -/

/-- A locator record of the graph reader: the optional `path` and
`url_string` attributes (`None` models an absent attribute). -/
structure PyLocator where
  path : Option PStr := none
  url_string : Option PStr := none
deriving DecidableEq

/-- A media descriptor: `locator` is `none` when the attribute is absent,
`some none` when present but falsy, `some (some l)` when truthy;
`hasEssenceField` models `hasattr(descriptor, 'essence') or
hasattr(descriptor, 'essence_data')` — attribute presence alone. -/
structure PyDescriptor where
  locator : Option (Option PyLocator) := none
  hasEssenceField : Bool := false
deriving DecidableEq

/-- A source mob as the classification code probes it: its optional
descriptor, whether the mob itself has an `essence` attribute, and the
locators reachable through one level of its slots (lines 376-398), where
`none` stands for a slot whose probing chain breaks off. -/
structure PySourceMob where
  descriptor : Option PyDescriptor := none
  hasEssenceAttr : Bool := false
  nestedLocators : List (Option PyLocator) := []
deriving DecidableEq

/-- Extract an external path from a locator (lines 356-365 and 388-398):
prefer `path`; else take `url_string`, stripping a `file://` scheme and
rejecting `http` URLs. -/
def locatorExtPath (loc : PyLocator) : Option PStr :=
  match loc.path with
  | some p => some p
  | none =>
    match loc.url_string with
    | some u =>
      if "file://".toList.isPrefixOf u then some (u.drop 7)
      else if "http".toList.isPrefixOf u then none
      else some u
    | none => none

/-- The nested slot probe (lines 376-398): scan the slot chain for the
first locator that yields a path; an `http` URL or a broken chain moves
on to the next slot. -/
def findNestedExtPath : List (Option PyLocator) → Option PStr
  | [] => none
  | none :: rest => findNestedExtPath rest
  | some loc :: rest =>
    match loc.path with
    | some p => some p
    | none =>
      match loc.url_string with
      | some u =>
        if "file://".toList.isPrefixOf u then some (u.drop 7)
        else if "http".toList.isPrefixOf u then findNestedExtPath rest
        else some u
      | none => findNestedExtPath rest

/-- Embedded/external classification (lines 344-398), in source order:
locator first (lines 352-365), then the descriptor essence-presence check
(lines 367-369) — note it is **not** guarded by the absence of an external
path — then the mob-level essence fallback (lines 371-374), then the nested
slot probe when the path is still falsy (lines 376-398). -/
def classifyEmbeddedExternal (sm : PySourceMob) : Bool × Option PStr :=
  let ext0 : Option PStr :=
    match sm.descriptor with
    | none => none
    | some d =>
      match d.locator with
      | some (some loc) => locatorExtPath loc
      | _ => none
  let emb0 : Bool :=
    match sm.descriptor with
    | none => false
    | some d => d.hasEssenceField
  let emb1 := if ¬ pyTruthy ext0 ∧ ¬ emb0 then sm.hasEssenceAttr else emb0
  let ext1 :=
    if ¬ pyTruthy ext0 then
      match findNestedExtPath sm.nestedLocators with
      | some p => some p
      | none => ext0
    else ext0
  (emb1, ext1)

/-- Path resolution of the graph walker (lines 404-410): join relative
paths with the directory of the container file, then normalize. -/
def resolveExternalPath (cwd aafPath raw : PStr) : PStr :=
  normpath (if ¬ isabs raw then joinPath (dirname (abspath cwd aafPath)) raw else raw)

/-- The inclusion rule (line 417). -/
def includeClipRule (is_audio : Bool) (ext : Option PStr) (emb hasSlotsAttr : Bool) : Bool :=
  is_audio ∨ pyTruthy ext ∨ emb ∨ ¬ hasSlotsAttr

/-! ## Counting lemmas for the report invariants -/

theorem validateClip_is_embedded (fs : FS) (c : MediaClip) :
    (validateClip fs c).is_embedded = c.is_embedded := by
  unfold validateClip
  cases clipInvalidReason fs c <;> rfl

theorem filter_embedded_split (l : List MediaClip) :
    (l.filter (fun c => c.is_embedded)).length
      + (l.filter (fun c => !c.is_embedded)).length = l.length := by
  induction l with
  | nil => rfl
  | cons c t ih =>
    cases h : c.is_embedded <;> simp [List.filter_cons, h] <;> omega

theorem valid_missing_split (fs : FS) (l : List MediaClip)
    (h : ∀ c ∈ l, c.is_valid = true) :
    ((l.map (validateClip fs)).filter (fun c => c.is_valid)).length
      + (missingClipDetails fs l).length = l.length := by
  induction l with
  | nil => rfl
  | cons c t ih =>
    have hc : c.is_valid = true := h c (List.mem_cons_self c t)
    have iht := ih (fun x hx => h x (List.mem_cons_of_mem c hx))
    unfold missingClipDetails at iht ⊢
    cases hr : clipInvalidReason fs c with
    | none =>
      have hv : validateClip fs c = c := by unfold validateClip; rw [hr]
      simp only [List.length_map] at iht
      simp [hv, hc, hr, List.filter_cons, List.length_map]
      omega
    | some m =>
      have hv : validateClip fs c = { c with is_valid := false, error_message := some m } := by
        unfold validateClip; rw [hr]
      simp only [List.length_map] at iht
      simp [hv, hr, List.filter_cons, List.length_map]
      omega

theorem omfClipsFromPaths_is_valid :
    ∀ (paths processed : List PStr) (n : Nat) (c : MediaClip),
      c ∈ omfClipsFromPaths paths processed n → c.is_valid = true := by
  intro paths
  induction paths with
  | nil => intro processed n c hc; simp [omfClipsFromPaths] at hc
  | cons p rest ih =>
    intro processed n c hc
    unfold omfClipsFromPaths at hc
    dsimp only [] at hc
    split at hc
    · split at hc
      · rcases List.mem_cons.mp hc with h | h
        · subst h; rfl
        · exact ih _ _ _ h
      · exact ih _ _ _ hc
    · exact ih _ _ _ hc

theorem aggressiveLoop_is_valid :
    ∀ (base : PStr) (ms : List (List PStr)) (n : Nat) (c : MediaClip),
      c ∈ aggressiveLoop base ms n → c.is_valid = true := by
  intro base ms
  induction ms with
  | nil => intro n c hc; simp [aggressiveLoop] at hc
  | cons m rest ih =>
    intro n c hc
    unfold aggressiveLoop at hc
    dsimp only [] at hc
    split at hc
    · simp at hc
    · cases h : aggressiveCandOfMatch m with
      | none => rw [h] at hc; exact ih _ _ hc
      | some path_str =>
        rw [h] at hc
        dsimp only [] at hc
        rcases List.mem_cons.mp hc with h2 | h2
        · subst h2; rfl
        · exact ih _ _ h2

/-- C1: for every report assembled by `validate_omf_aaf_media` from clips
that enter validation in their default-valid state (as every parser
constructs them), `embedded_clips + linked_clips = total_clips`,
`valid_clips + missing_clips = total_clips`, and `missing_clips` equals
the length of `missing_clip_details`.  The last two conjuncts show the
legacy parser and the aggressive fallback only emit default-valid clips. -/
theorem claim_C1_report_count_invariants :
    (∀ (fs : FS) (fp : PStr) (clips tl : List MediaClip) (td : ℚ),
      (∀ c ∈ clips, c.is_valid = true) →
      (buildReport fs fp clips tl td).embedded_clips
          + (buildReport fs fp clips tl td).linked_clips
        = (buildReport fs fp clips tl td).total_clips
      ∧ (buildReport fs fp clips tl td).valid_clips
          + (buildReport fs fp clips tl td).missing_clips
        = (buildReport fs fp clips tl td).total_clips
      ∧ (buildReport fs fp clips tl td).missing_clips
        = (buildReport fs fp clips tl td).missing_clip_details.length)
    ∧ (∀ (paths processed : List PStr) (n : Nat),
        ∀ c ∈ omfClipsFromPaths paths processed n, c.is_valid = true)
    ∧ (∀ (base : PStr) (ms : List (List PStr)),
        ∀ c ∈ aggressiveOmfParse base ms, c.is_valid = true) := by
  refine ⟨?_, ?_, ?_⟩
  · intro fs fp clips tl td h
    refine ⟨?_, ?_, by simp [buildReport]⟩
    · simp only [buildReport]
      exact filter_embedded_split (clips.map (validateClip fs))
    · simp only [buildReport]
      have hvm := valid_missing_split fs clips h
      simpa [List.length_map] using hvm
  · exact omfClipsFromPaths_is_valid
  · intro base ms c hc
    exact aggressiveLoop_is_valid base ms 1 c hc

/-- Filesystem on which no path exists. -/
def fsEmpty : FS :=
  { pathExists := fun _ => false, isFile := fun _ => false, getsize := fun _ => 0 }

/-- An embedded clip as the extraction phase constructs it. -/
def clipEmbeddedSample : MediaClip :=
  { name := "Embedded 1".toList, clip_id := some ("mob_1".toList), is_embedded := true }

/-- An external clip whose resolved path is missing on `fsEmpty`. -/
def clipMissingSample : MediaClip :=
  { name := "a.wav".toList, clip_id := some ("omf_clip_1".toList),
    external_path := some ("/proj/media/a.wav".toList) }

theorem claim_C1_witness :
    (buildReport fsEmpty ("show.omf".toList) [clipEmbeddedSample, clipMissingSample] [] 0).embedded_clips
        + (buildReport fsEmpty ("show.omf".toList) [clipEmbeddedSample, clipMissingSample] [] 0).linked_clips
      = (buildReport fsEmpty ("show.omf".toList) [clipEmbeddedSample, clipMissingSample] [] 0).total_clips
    ∧ (buildReport fsEmpty ("show.omf".toList) [clipEmbeddedSample, clipMissingSample] [] 0).valid_clips
        + (buildReport fsEmpty ("show.omf".toList) [clipEmbeddedSample, clipMissingSample] [] 0).missing_clips
      = (buildReport fsEmpty ("show.omf".toList) [clipEmbeddedSample, clipMissingSample] [] 0).total_clips
    ∧ (buildReport fsEmpty ("show.omf".toList) [clipEmbeddedSample, clipMissingSample] [] 0).missing_clips
      = (buildReport fsEmpty ("show.omf".toList) [clipEmbeddedSample, clipMissingSample] [] 0).missing_clip_details.length :=
  claim_C1_report_count_invariants.1 fsEmpty ("show.omf".toList)
    [clipEmbeddedSample, clipMissingSample] [] 0 (by decide)

/-- C5: `validate_embedded_media` returns `True` for every clip, so the
validation loop leaves every embedded clip untouched (`is_valid` and
`error_message` keep their incoming values) and never adds an embedded
clip to `missing_clip_details`. -/
theorem claim_C5_embedded_always_valid :
    (∀ c : MediaClip, validate_embedded_media c = true)
    ∧ (∀ (fs : FS) (c : MediaClip), c.is_embedded = true → validateClip fs c = c)
    ∧ (∀ (fs : FS) (clips : List MediaClip) (d : MediaClip),
        d ∈ missingClipDetails fs clips → d.is_embedded = false) := by
  refine ⟨fun _ => rfl, ?_, ?_⟩
  · intro fs c hc
    unfold validateClip clipInvalidReason
    simp [hc, validate_embedded_media]
  · intro fs clips d hd
    unfold missingClipDetails at hd
    rcases List.mem_map.mp hd with ⟨c0, hc0, rfl⟩
    have h1 : (clipInvalidReason fs c0).isSome := (List.mem_filter.mp hc0).2
    cases hb : c0.is_embedded with
    | false => rw [validateClip_is_embedded]; exact hb
    | true =>
      exfalso
      unfold clipInvalidReason at h1
      simp [hb, validate_embedded_media] at h1

theorem claim_C5_witness :
    validate_embedded_media clipEmbeddedSample = true
    ∧ validateClip fsEmpty clipEmbeddedSample = clipEmbeddedSample :=
  ⟨claim_C5_embedded_always_valid.1 clipEmbeddedSample,
   claim_C5_embedded_always_valid.2.1 fsEmpty clipEmbeddedSample (by decide)⟩

/-- C4: a legacy-format file over the 200 MB cap makes `_parse_omf_file`
raise `FileTooLarge` regardless of any scan outcome (the gate runs before
any byte is scanned), and path extraction on a file over 100 MB reads
exactly the first 50 MB. -/
theorem claim_C4_size_caps :
    (∀ (fs : FS) (fileSize : Nat) (base : PStr) (events : List ScanEvent)
       (ms : List (List PStr)),
      fileSize > 200 * 1024 * 1024 →
      parseOmfFile fs fileSize base events ms = Except.error OmfError.fileTooLarge)
    ∧ (∀ content : List Nat,
        100 * 1024 * 1024 < content.length → content.length ≤ 200 * 1024 * 1024 →
        (omfExtractionData content).length = 50 * 1024 * 1024) := by
  constructor
  · intro fs fileSize base events ms h
    have hgt : fileSize > MAX_OMF_SIZE := by unfold MAX_OMF_SIZE; omega
    unfold parseOmfFile
    rw [if_pos hgt]
  · intro content h1 h2
    have hgt : content.length > MAX_FILE_SIZE := by unfold MAX_FILE_SIZE; omega
    unfold omfExtractionData
    rw [if_pos hgt, List.length_take]
    unfold EXTRACT_WINDOW
    unfold MAX_FILE_SIZE at hgt
    omega

theorem claim_C4_witness :
    parseOmfFile fsEmpty (250 * 1024 * 1024) ("/proj".toList) [] []
      = Except.error OmfError.fileTooLarge
    ∧ (omfExtractionData (List.replicate (150 * 1024 * 1024) 0)).length
      = 50 * 1024 * 1024 :=
  ⟨claim_C4_size_caps.1 fsEmpty (250 * 1024 * 1024) ("/proj".toList) [] [] (by norm_num),
   claim_C4_size_caps.2 (List.replicate (150 * 1024 * 1024) 0)
     (by rw [List.length_replicate]; norm_num)
     (by rw [List.length_replicate]; norm_num)⟩

set_option maxRecDepth 4000 in
/-- C7: `_is_valid_path_string` rejects strings shorter than 4
characters, strings with fewer than 70 percent printable characters
(`\n`, `\r`, `\t` counting as printable), and strings whose other control
characters exceed 10 percent of the length; the Windows path
`C:\Audio\Take1.wav` passes the filter, and a 200-character string of
non-printable bytes does not. -/
theorem claim_C7_path_filter :
    (∀ s : PStr, s.length < 4 → isValidPathString s = false)
    ∧ (∀ s : PStr, printableCount s * 10 < s.length * 7 → isValidPathString s = false)
    ∧ (∀ s : PStr, controlCount s * 10 > s.length → isValidPathString s = false)
    ∧ isValidPathString ("C:\\Audio\\Take1.wav".toList) = true
    ∧ isValidPathString (List.replicate 200 '\x01') = false := by
  refine ⟨?_, ?_, ?_, by decide, by decide⟩
  · intro s h
    unfold isValidPathString
    rw [if_pos (Or.inr h)]
  · intro s h
    unfold isValidPathString
    by_cases h0 : s = [] ∨ s.length < 4
    · rw [if_pos h0]
    · rw [if_neg h0, if_pos h]
  · intro s h
    unfold isValidPathString
    by_cases h0 : s = [] ∨ s.length < 4
    · rw [if_pos h0]
    · rw [if_neg h0]
      by_cases h1 : printableCount s * 10 < s.length * 7
      · rw [if_pos h1]
      · rw [if_neg h1, if_pos h]

theorem claim_C7_witness :
    isValidPathString ("ab".toList) = false
    ∧ isValidPathString ("abcde".toList ++ List.replicate 5 '\x01') = false
    ∧ isValidPathString ("abcdefgh".toList ++ List.replicate 2 '\x01') = false :=
  ⟨claim_C7_path_filter.1 ("ab".toList) (by decide),
   claim_C7_path_filter.2.1 ("abcde".toList ++ List.replicate 5 '\x01') (by decide),
   claim_C7_path_filter.2.2.1 ("abcdefgh".toList ++ List.replicate 2 '\x01') (by decide)⟩

/-- C9: name matching strips the extension and lower-cases both the clip
display name and the resolved file's base name: `"VO_Line_04"` against
`VO_Line_04.WAV` matches, against `vo_line_4.wav` it does not; the result
is `None` whenever the matched clip has no (truthy) external path. -/
theorem claim_C9_name_matching :
    (aafNameMatch ("VO_Line_04".toList)
        (some { name := "VO_Line_04".toList,
                external_path := some ("/media/VO_Line_04.WAV".toList) })).1 = some true
    ∧ (aafNameMatch ("VO_Line_04".toList)
        (some { name := "VO_Line_04".toList,
                external_path := some ("/media/vo_line_4.wav".toList) })).1 = some false
    ∧ (∀ (n : PStr) (m : MediaClip), pyTruthy m.external_path = false →
        (aafNameMatch n (some m)).1 = none)
    ∧ (∀ n : PStr, (aafNameMatch n none).1 = none) := by
  refine ⟨by decide, by decide, ?_, fun n => rfl⟩
  intro n m h
  by_cases he : m.is_embedded = true <;> simp [aafNameMatch, h, he]

theorem claim_C9_witness :
    (aafNameMatch ("VO_Line_04".toList) (some clipEmbeddedSample)).1 = none :=
  claim_C9_name_matching.2.2.1 ("VO_Line_04".toList) clipEmbeddedSample (by decide)

/-! ## Structure of the aggressive fallback output -/

theorem joinPath_ne_nil (a b : PStr) (hb : b ≠ []) : joinPath a b ≠ [] := by
  unfold joinPath
  split
  · exact hb
  · split
    · simp [hb]
    · simp

theorem aggressiveCandOfMatch_length :
    ∀ (m : List PStr) (d : PStr), aggressiveCandOfMatch m = some d → d.length > 4 := by
  intro m
  induction m with
  | nil => intro d h; simp [aggressiveCandOfMatch] at h
  | cons x rest ih =>
    intro d h
    unfold aggressiveCandOfMatch at h
    split at h
    · rename_i hcond
      cases h
      exact hcond.1
    · exact ih d h

theorem aggressiveLoop_shape :
    ∀ (base : PStr) (ms : List (List PStr)) (n : Nat) (c : MediaClip),
      c ∈ aggressiveLoop base ms n →
      c.is_embedded = false ∧ ∃ p, c.external_path = some p ∧ p ≠ [] := by
  intro base ms
  induction ms with
  | nil => intro n c hc; simp [aggressiveLoop] at hc
  | cons m rest ih =>
    intro n c hc
    unfold aggressiveLoop at hc
    dsimp only [] at hc
    split at hc
    · simp at hc
    · cases h : aggressiveCandOfMatch m with
      | none => rw [h] at hc; exact ih _ _ hc
      | some path_str =>
        rw [h] at hc
        dsimp only [] at hc
        rcases List.mem_cons.mp hc with h2 | h2
        · subst h2
          have hlen : path_str.length > 4 := aggressiveCandOfMatch_length m path_str h
          have hne : path_str ≠ [] := by
            intro hcontra; rw [hcontra] at hlen; simp at hlen
          refine ⟨rfl, ?_⟩
          by_cases hab : isabs path_str = true
          · exact ⟨path_str, by simp [hab], hne⟩
          · exact ⟨joinPath base path_str, by simp [hab],
              joinPath_ne_nil base path_str hne⟩
        · exact ih _ _ h2

theorem aggressiveLoop_length_bound :
    ∀ (base : PStr) (ms : List (List PStr)) (n : Nat),
      (aggressiveLoop base ms n).length ≤ 1001 - n := by
  intro base ms
  induction ms with
  | nil => intro n; simp [aggressiveLoop]
  | cons m rest ih =>
    intro n
    unfold aggressiveLoop
    dsimp only []
    split
    · simp
    · rename_i hle
      cases h : aggressiveCandOfMatch m with
      | none => exact ih n
      | some path_str =>
        dsimp only []
        have := ih (n + 1)
        simp only [List.length_cons]
        omega

/-- C10: every clip emitted by the aggressive legacy-format fallback is
external (`is_embedded = False`, `external_path ≠ None`), so a report
built solely from the fallback output has `embedded_clips = 0` and each
of its clips is validated through the filesystem-existence branch; the
fallback emits at most 1000 clips. -/
theorem claim_C10_aggressive_fallback :
    (∀ (base : PStr) (ms : List (List PStr)),
      ∀ c ∈ aggressiveOmfParse base ms,
        c.is_embedded = false ∧ c.external_path ≠ none)
    ∧ (∀ (base : PStr) (ms : List (List PStr)),
        (aggressiveOmfParse base ms).length ≤ 1000)
    ∧ (∀ (fs : FS) (fp base : PStr) (ms : List (List PStr)) (tl : List MediaClip) (td : ℚ),
        (buildReport fs fp (aggressiveOmfParse base ms) tl td).embedded_clips = 0)
    ∧ (∀ (fs : FS) (base : PStr) (ms : List (List PStr)),
        ∀ c ∈ aggressiveOmfParse base ms,
          ∃ p, c.external_path = some p ∧
            clipInvalidReason fs c =
              (if ¬ fs.pathExists p then some (notFoundMsg p)
               else if ¬ fs.isFile p then some (notFileMsg p) else none)) := by
  refine ⟨?_, ?_, ?_, ?_⟩
  · intro base ms c hc
    obtain ⟨h1, p, h2, _⟩ := aggressiveLoop_shape base ms 1 c hc
    exact ⟨h1, by rw [h2]; exact fun hcontra => Option.noConfusion hcontra⟩
  · intro base ms
    have := aggressiveLoop_length_bound base ms 1
    unfold aggressiveOmfParse
    omega
  · intro fs fp base ms tl td
    simp only [buildReport]
    rw [List.length_eq_zero, List.filter_eq_nil_iff]
    intro a ha
    rcases List.mem_map.mp ha with ⟨c0, hc0, rfl⟩
    have hemb := (aggressiveLoop_shape base ms 1 c0 hc0).1
    rw [validateClip_is_embedded]
    simp [hemb]
  · intro fs base ms c hc
    obtain ⟨hemb, p, hp, hpne⟩ := aggressiveLoop_shape base ms 1 c hc
    refine ⟨p, hp, ?_⟩
    have htruthy : pyTruthy c.external_path = true := by
      rw [hp]
      cases p with
      | nil => exact absurd rfl hpne
      | cons a t => rfl
    unfold clipInvalidReason
    rw [hemb]
    simp only [Bool.false_eq_true, if_false, htruthy]
    rw [hp]
    simp [htruthy]

def aggrBase : PStr := "/proj".toList

def aggrMs : List (List PStr) := [["media/a.wav".toList]]

def aggrClip : MediaClip :=
  { name := "a.wav".toList, clip_id := some ("omf_ref_1".toList),
    is_embedded := false, external_path := some ("/proj/media/a.wav".toList) }

theorem claim_C10_witness :
    (aggressiveOmfParse aggrBase aggrMs).length ≤ 1000
    ∧ (buildReport fsEmpty ("x.omf".toList) (aggressiveOmfParse aggrBase aggrMs) [] 0).embedded_clips = 0
    ∧ (aggrClip.is_embedded = false ∧ aggrClip.external_path ≠ none) :=
  ⟨claim_C10_aggressive_fallback.2.1 aggrBase aggrMs,
   claim_C10_aggressive_fallback.2.2.1 fsEmpty ("x.omf".toList) aggrBase aggrMs [] 0,
   claim_C10_aggressive_fallback.1 aggrBase aggrMs aggrClip (by decide)⟩

/-! ## Structural lemmas about `normpath`
These support the path-normalization claims: `normpath` is idempotent and
preserves absoluteness, so every path the scanner emits (always a
`normpath` image) is a `normpath` fixed point. -/

theorem splitSlash_slashFree (p : PStr) : ∀ x ∈ splitSlash p, '/' ∉ x := by
  induction p with
  | nil => intro x hx; simp [splitSlash] at hx; simp [hx]
  | cons c rest ih =>
    intro x hx
    unfold splitSlash at hx
    by_cases hc : c = '/'
    · rw [if_pos hc] at hx
      rcases List.mem_cons.mp hx with h | h
      · simp [h]
      · exact ih x h
    · rw [if_neg hc] at hx
      cases hsp : splitSlash rest with
      | nil =>
        rw [hsp] at hx
        simp at hx
        simp [hx]
        exact fun h1 => hc h1.symm
      | cons h0 t0 =>
        rw [hsp] at hx
        rcases List.mem_cons.mp hx with h | h
        · subst h
          intro hmem
          rcases List.mem_cons.mp hmem with h1 | h1
          · exact hc h1.symm
          · exact ih h0 (by rw [hsp]; exact List.mem_cons_self h0 t0) h1
        · exact ih x (by rw [hsp]; exact List.mem_cons_of_mem h0 h)

theorem splitSlash_of_slashFree (a : PStr) (h : '/' ∉ a) : splitSlash a = [a] := by
  induction a with
  | nil => rfl
  | cons c t ih =>
    have hc : c ≠ '/' := fun hcontra => h (by rw [hcontra]; exact List.mem_cons_self _ _)
    have ht : '/' ∉ t := fun hmem => h (List.mem_cons_of_mem c hmem)
    unfold splitSlash
    rw [if_neg hc, ih ht]

theorem splitSlash_append (a b : PStr) (h : '/' ∉ a) :
    splitSlash (a ++ '/' :: b) = a :: splitSlash b := by
  induction a with
  | nil => simp [splitSlash]
  | cons c t ih =>
    have hc : c ≠ '/' := fun hcontra => h (by rw [hcontra]; exact List.mem_cons_self _ _)
    have ht : '/' ∉ t := fun hmem => h (List.mem_cons_of_mem c hmem)
    show splitSlash (c :: (t ++ '/' :: b)) = (c :: t) :: splitSlash b
    simp only [splitSlash, hc, ih ht, if_false, ite_false]

theorem splitSlash_intercalate (l : List PStr) (hne : l ≠ [])
    (h : ∀ x ∈ l, '/' ∉ x) : splitSlash (intercalateSlash l) = l := by
  induction l with
  | nil => exact absurd rfl hne
  | cons a t ih =>
    cases t with
    | nil =>
      show splitSlash (intercalateSlash [a]) = [a]
      unfold intercalateSlash
      exact splitSlash_of_slashFree a (h a (List.mem_cons_self a []))
    | cons b t2 =>
      show splitSlash (a ++ '/' :: intercalateSlash (b :: t2)) = a :: (b :: t2)
      rw [splitSlash_append a _ (h a (List.mem_cons_self _ _))]
      rw [ih (by simp) (fun x hx => h x (List.mem_cons_of_mem a hx))]

theorem normStep_nil_comp (i : Bool) (st : List PStr) : normStep i st [] = st := by
  simp [normStep]

/-- A component that survives the skip and is not `".."` is always
pushed. -/
theorem foldl_normStep_push (i : Bool) :
    ∀ (l : List PStr) (st : List PStr),
      (∀ x ∈ l, x ≠ [] ∧ x ≠ ['.'] ∧ x ≠ ddComp) →
      l.foldl (normStep i) st = l.reverse ++ st := by
  intro l
  induction l with
  | nil => intro st _; simp
  | cons x t ih =>
    intro st h
    obtain ⟨h1, h2, h3⟩ := h x (List.mem_cons_self x t)
    have hstep : normStep i st x = x :: st := by
      unfold normStep
      rw [if_neg (by simp [h1, h2]), if_pos (Or.inl h3)]
    simp only [List.foldl_cons, hstep]
    rw [ih (x :: st) (fun y hy => h y (List.mem_cons_of_mem x hy))]
    simp

/-- `".."` components accumulate on an all-`".."` stack when the path is
relative. -/
theorem foldl_normStep_dd :
    ∀ (l st : List PStr), (∀ x ∈ l, x = ddComp) → (∀ y ∈ st, y = ddComp) →
      l.foldl (normStep false) st = l.reverse ++ st := by
  intro l
  induction l with
  | nil => intro st _ _; simp
  | cons x t ih =>
    intro st h hst
    have hx : x = ddComp := h x (List.mem_cons_self x t)
    have hstep : normStep false st x = x :: st := by
      unfold normStep
      rw [if_neg (by simp [hx, ddComp])]
      cases st with
      | nil => rw [if_pos (Or.inr (Or.inl ⟨rfl, rfl⟩))]
      | cons y st2 =>
        have hy : y = ddComp := hst y (List.mem_cons_self y st2)
        rw [if_pos (Or.inr (Or.inr (by simp [hy])))]
    simp only [List.foldl_cons, hstep]
    rw [ih (x :: st) (fun y hy => h y (List.mem_cons_of_mem x hy))
      (fun y hy => by
        rcases List.mem_cons.mp hy with h' | h'
        · rw [h']; exact hx
        · exact hst y h')]
    simp

/-- A component the loop can keep in its output other than `".."`. -/
def GoodFront (x : PStr) : Prop := x ≠ [] ∧ x ≠ ['.'] ∧ x ≠ ddComp ∧ '/' ∉ x

/-- Invariant of the loop stack: real components below, then a block of
`".."` components (only possible for relative paths). -/
def GoodStack (i : Bool) (st : List PStr) : Prop :=
  ∃ front dds, st = front ++ dds ∧ (∀ x ∈ front, GoodFront x)
    ∧ (∀ x ∈ dds, x = ddComp) ∧ (i = true → dds = [])

theorem goodStack_nil (i : Bool) : GoodStack i [] :=
  ⟨[], [], rfl, by simp, by simp, fun _ => rfl⟩

theorem goodStack_step (i : Bool) (st : List PStr) (x : PStr) (hx : '/' ∉ x)
    (h : GoodStack i st) : GoodStack i (normStep i st x) := by
  obtain ⟨front, dds, hst, hfront, hdds, hinit⟩ := h
  unfold normStep
  by_cases hskip : x = [] ∨ x = ['.']
  · rw [if_pos hskip]; exact ⟨front, dds, hst, hfront, hdds, hinit⟩
  · rw [if_neg hskip]
    push_neg at hskip
    by_cases hpush : x ≠ ddComp ∨ (i = false ∧ st = []) ∨ st.head? = some ddComp
    · rw [if_pos hpush]
      by_cases hdd : x = ddComp
      · -- pushing a ".." : the stack must be all-".." (or empty, i false)
        have hfront_nil : front = [] := by
          rcases hpush with h' | h' | h'
          · exact absurd hdd h'
          · rcases front with _ | ⟨f0, front2⟩
            · rfl
            · exfalso; rw [hst] at h'; simp at h'
          · rcases front with _ | ⟨f0, front2⟩
            · rfl
            · exfalso
              rw [hst] at h'
              simp at h'
              exact (hfront f0 (List.mem_cons_self f0 front2)).2.2.1 h'
        have hi_false : i = false := by
          cases hi : i with
          | false => rfl
          | true =>
            exfalso
            rcases hpush with h' | h' | h'
            · exact h' hdd
            · rw [hi] at h'; exact Bool.noConfusion h'.1
            · rw [hinit hi] at hst
              rw [hfront_nil] at hst
              simp at hst
              rw [hst] at h'
              simp at h'
        refine ⟨[], x :: dds, ?_, by simp, ?_, ?_⟩
        · rw [hst, hfront_nil]; simp
        · intro y hy
          rcases List.mem_cons.mp hy with h' | h'
          · rw [h']; exact hdd
          · exact hdds y h'
        · intro hi; rw [hi] at hi_false; exact Bool.noConfusion hi_false
      · -- pushing a real component: it goes on top; any ".."s below must
        -- be absent above it, i.e. the new front is x :: front only if
        -- dds sits below front, which the invariant already provides
        refine ⟨x :: front, dds, by rw [hst]; rfl, ?_, hdds, hinit⟩
        intro y hy
        rcases List.mem_cons.mp hy with h' | h'
        · rw [h']; exact ⟨hskip.1, hskip.2, hdd, hx⟩
        · exact hfront y h'
    · rw [if_neg hpush]
      push_neg at hpush
      obtain ⟨hdd, hne, hhead⟩ := hpush
      cases hst2 : st with
      | nil => simp; exact goodStack_nil i
      | cons y st3 =>
        rcases front with _ | ⟨f0, front2⟩
        · -- front empty: head of st is a "..", contradicting hhead
          exfalso
          rw [hst2] at hst
          simp at hst
          have hy : y = ddComp := hdds y (by rw [← hst]; exact List.mem_cons_self y st3)
          rw [hst2] at hhead
          simp at hhead
          exact hhead hy
        · rw [hst2] at hst
          simp at hst
          refine ⟨front2, dds, ?_, ?_, hdds, hinit⟩
          · simp [hst.2]
          · intro z hz; exact hfront z (List.mem_cons_of_mem f0 hz)

theorem goodStack_foldl (i : Bool) :
    ∀ (l : List PStr) (st : List PStr), (∀ x ∈ l, '/' ∉ x) → GoodStack i st →
      GoodStack i (l.foldl (normStep i) st) := by
  intro l
  induction l with
  | nil => intro st _ h; exact h
  | cons x t ih =>
    intro st h hst
    simp only [List.foldl_cons]
    exact ih (normStep i st x) (fun y hy => h y (List.mem_cons_of_mem x hy))
      (goodStack_step i st x (h x (List.mem_cons_self x t)) hst)

theorem normComps_shape (i : Bool) (comps : List PStr) (h : ∀ x ∈ comps, '/' ∉ x) :
    ∃ dds rest, normComps i comps = dds ++ rest
      ∧ (∀ x ∈ dds, x = ddComp) ∧ (∀ x ∈ rest, GoodFront x)
      ∧ (i = true → dds = []) := by
  obtain ⟨front, dds, hst, hfront, hdds, hinit⟩ :=
    goodStack_foldl i comps [] h (goodStack_nil i)
  refine ⟨dds.reverse, front.reverse, ?_, ?_, ?_, ?_⟩
  · unfold normComps; rw [hst]; simp
  · intro x hx; exact hdds x (List.mem_reverse.mp hx)
  · intro x hx; exact hfront x (List.mem_reverse.mp hx)
  · intro hi; rw [hinit hi]; rfl

theorem normComps_good (i : Bool) (dds rest : List PStr)
    (hdd : ∀ x ∈ dds, x = ddComp) (hrest : ∀ x ∈ rest, GoodFront x)
    (hi : i = true → dds = []) : normComps i (dds ++ rest) = dds ++ rest := by
  have hrest3 : ∀ x ∈ rest, x ≠ [] ∧ x ≠ ['.'] ∧ x ≠ ddComp :=
    fun x hx => ⟨(hrest x hx).1, (hrest x hx).2.1, (hrest x hx).2.2.1⟩
  unfold normComps
  rw [List.foldl_append]
  cases hib : i with
  | true =>
    rw [hi hib]
    simp only [List.foldl_nil, List.nil_append]
    rw [foldl_normStep_push true rest [] hrest3]
    simp
  | false =>
    rw [foldl_normStep_dd dds [] hdd (by simp)]
    rw [foldl_normStep_push false rest (dds.reverse ++ []) hrest3]
    simp

theorem intercalateSlash_cons (a : PStr) (t : List PStr) :
    ∃ x, intercalateSlash (a :: t) = a ++ x := by
  cases t with
  | nil => exact ⟨[], by simp [intercalateSlash]⟩
  | cons b t2 => exact ⟨'/' :: intercalateSlash (b :: t2), rfl⟩

theorem intercalateSlash_head (l : List PStr) (a : PStr) (t : List PStr)
    (hl : l = a :: t) (ha : a ≠ []) (hsf : '/' ∉ a) :
    ∃ ch tl, intercalateSlash l = ch :: tl ∧ ch ≠ '/' := by
  subst hl
  obtain ⟨x0, hx0⟩ := intercalateSlash_cons a t
  cases a with
  | nil => exact absurd rfl ha
  | cons ach atl =>
    refine ⟨ach, atl ++ x0, by rw [hx0]; rfl, ?_⟩
    intro hcontra
    exact hsf (by rw [hcontra]; exact List.mem_cons_self _ _)

theorem dslash_one (ch : Char) (tl : PStr) (h : ch ≠ '/') :
    dslash ('/' :: ch :: tl) = false := by
  cases tl <;> simp [dslash, h]

theorem dslash_two (ch : Char) (tl : PStr) (h : ch ≠ '/') :
    dslash ('/' :: '/' :: ch :: tl) = true := by
  simp [dslash, h]

theorem normpath_eq_of_ne (p : PStr) (hp : p ≠ []) :
    normpath p =
      (if (if isabs p then (if dslash p then ['/', '/'] else ['/']) else ([] : PStr))
          ++ intercalateSlash (normComps (isabs p) (splitSlash p)) = [] then ['.']
       else (if isabs p then (if dslash p then ['/', '/'] else ['/']) else ([] : PStr))
          ++ intercalateSlash (normComps (isabs p) (splitSlash p))) := by
  unfold normpath
  rw [if_neg hp]

theorem normpath_fix_rel (dds rest : List PStr) (hne : dds ++ rest ≠ [])
    (hdds : ∀ x ∈ dds, x = ddComp) (hrest : ∀ x ∈ rest, GoodFront x) :
    isabs (intercalateSlash (dds ++ rest)) = false
    ∧ normpath (intercalateSlash (dds ++ rest)) = intercalateSlash (dds ++ rest) := by
  have hmem : ∀ x ∈ dds ++ rest, x ≠ [] ∧ '/' ∉ x := by
    intro x hx
    rcases List.mem_append.mp hx with h' | h'
    · rw [hdds x h']; exact ⟨by simp [ddComp], by simp [ddComp]⟩
    · exact ⟨(hrest x h').1, (hrest x h').2.2.2⟩
  obtain ⟨a, t, hl⟩ : ∃ a t, dds ++ rest = a :: t := by
    cases hcase : dds ++ rest with
    | nil => exact absurd hcase hne
    | cons a t => exact ⟨a, t, rfl⟩
  have ha : a ≠ [] ∧ '/' ∉ a := hmem a (by rw [hl]; exact List.mem_cons_self a t)
  obtain ⟨ch, tl, hq, hch⟩ := intercalateSlash_head (dds ++ rest) a t hl ha.1 ha.2
  have habs : isabs (intercalateSlash (dds ++ rest)) = false := by
    rw [hq]; simp [isabs, hch]
  refine ⟨habs, ?_⟩
  have hqne : intercalateSlash (dds ++ rest) ≠ [] := by rw [hq]; simp
  have heq := normpath_eq_of_ne _ hqne
  rw [habs] at heq
  rw [splitSlash_intercalate (dds ++ rest) hne (fun x hx => (hmem x hx).2)] at heq
  rw [normComps_good false dds rest hdds hrest (by simp)] at heq
  simp only [Bool.false_eq_true, if_false, List.nil_append] at heq
  rw [if_neg hqne] at heq
  exact heq

theorem normpath_fix_abs1 (rest : List PStr) (hne : rest ≠ [])
    (hrest : ∀ x ∈ rest, GoodFront x) :
    normpath ('/' :: intercalateSlash rest) = '/' :: intercalateSlash rest := by
  have hmem : ∀ x ∈ rest, x ≠ [] ∧ '/' ∉ x :=
    fun x hx => ⟨(hrest x hx).1, (hrest x hx).2.2.2⟩
  obtain ⟨a, t, hl⟩ : ∃ a t, rest = a :: t := by
    cases hcase : rest with
    | nil => exact absurd hcase hne
    | cons a t => exact ⟨a, t, rfl⟩
  have ha : a ≠ [] ∧ '/' ∉ a := hmem a (by rw [hl]; exact List.mem_cons_self a t)
  obtain ⟨ch, tl, hq, hch⟩ := intercalateSlash_head rest a t hl ha.1 ha.2
  have hqne : ('/' :: intercalateSlash rest : PStr) ≠ [] := by simp
  have heq := normpath_eq_of_ne _ hqne
  have habs : isabs ('/' :: intercalateSlash rest) = true := by simp [isabs]
  have hds : dslash ('/' :: intercalateSlash rest) = false := by
    rw [hq]; exact dslash_one ch tl hch
  have hsplit : splitSlash ('/' :: intercalateSlash rest) = [] :: rest := by
    show (if '/' = '/' then [] :: splitSlash (intercalateSlash rest)
          else _) = [] :: rest
    rw [if_pos rfl,
      splitSlash_intercalate rest hne (fun x hx => (hmem x hx).2)]
  have hcomps : normComps true ([] :: rest) = rest := by
    unfold normComps
    rw [List.foldl_cons, normStep_nil_comp]
    rw [foldl_normStep_push true rest []
      (fun x hx => ⟨(hrest x hx).1, (hrest x hx).2.1, (hrest x hx).2.2.1⟩)]
    simp
  rw [habs, hds, hsplit, hcomps] at heq
  simp only [if_true, Bool.false_eq_true, if_false, List.singleton_append] at heq
  rw [if_neg (by simp : ('/' :: intercalateSlash rest : PStr) ≠ [])] at heq
  exact heq

theorem normpath_fix_abs2 (rest : List PStr) (hne : rest ≠ [])
    (hrest : ∀ x ∈ rest, GoodFront x) :
    normpath ('/' :: '/' :: intercalateSlash rest) = '/' :: '/' :: intercalateSlash rest := by
  have hmem : ∀ x ∈ rest, x ≠ [] ∧ '/' ∉ x :=
    fun x hx => ⟨(hrest x hx).1, (hrest x hx).2.2.2⟩
  obtain ⟨a, t, hl⟩ : ∃ a t, rest = a :: t := by
    cases hcase : rest with
    | nil => exact absurd hcase hne
    | cons a t => exact ⟨a, t, rfl⟩
  have ha : a ≠ [] ∧ '/' ∉ a := hmem a (by rw [hl]; exact List.mem_cons_self a t)
  obtain ⟨ch, tl, hq, hch⟩ := intercalateSlash_head rest a t hl ha.1 ha.2
  have hqne : ('/' :: '/' :: intercalateSlash rest : PStr) ≠ [] := by simp
  have heq := normpath_eq_of_ne _ hqne
  have habs : isabs ('/' :: '/' :: intercalateSlash rest) = true := by simp [isabs]
  have hds : dslash ('/' :: '/' :: intercalateSlash rest) = true := by
    rw [hq]; exact dslash_two ch tl hch
  have hsplit : splitSlash ('/' :: '/' :: intercalateSlash rest)
      = [] :: [] :: rest := by
    show (if '/' = '/' then [] :: splitSlash ('/' :: intercalateSlash rest)
          else _) = [] :: [] :: rest
    rw [if_pos rfl]
    show ([] : PStr) :: (if '/' = '/' then [] :: splitSlash (intercalateSlash rest)
          else _) = [] :: [] :: rest
    rw [if_pos rfl,
      splitSlash_intercalate rest hne (fun x hx => (hmem x hx).2)]
  have hcomps : normComps true ([] :: [] :: rest) = rest := by
    unfold normComps
    rw [List.foldl_cons, normStep_nil_comp, List.foldl_cons, normStep_nil_comp]
    rw [foldl_normStep_push true rest []
      (fun x hx => ⟨(hrest x hx).1, (hrest x hx).2.1, (hrest x hx).2.2.1⟩)]
    simp
  rw [habs, hds, hsplit, hcomps] at heq
  simp only [if_true] at heq
  rw [if_neg (by simp : (['/', '/'] ++ intercalateSlash rest : PStr) ≠ [])] at heq
  exact heq

theorem intercalateSlash_ne_nil (l : List PStr) (hne : l ≠ [])
    (hmem : ∀ x ∈ l, x ≠ []) : intercalateSlash l ≠ [] := by
  obtain ⟨a, t, hl⟩ : ∃ a t, l = a :: t := by
    cases hcase : l with
    | nil => exact absurd hcase hne
    | cons a t => exact ⟨a, t, rfl⟩
  obtain ⟨x0, hx0⟩ := intercalateSlash_cons a t
  rw [hl, hx0]
  have ha : a ≠ [] := hmem a (by rw [hl]; exact List.mem_cons_self a t)
  simp [ha]

/-- `normpath` preserves absoluteness and is idempotent. -/
theorem normpath_main (p : PStr) :
    isabs (normpath p) = isabs p ∧ normpath (normpath p) = normpath p := by
  by_cases hp : p = []
  · subst hp; exact ⟨by decide, by decide⟩
  · obtain ⟨dds, rest, hcomps, hdds, hrest, hinit⟩ :=
      normComps_shape (isabs p) (splitSlash p) (splitSlash_slashFree p)
    have heq := normpath_eq_of_ne p hp
    rw [hcomps] at heq
    cases hab : isabs p with
    | false =>
      rw [hab] at heq
      simp only [Bool.false_eq_true, if_false, List.nil_append] at heq
      by_cases hl : dds ++ rest = []
      · rw [hl] at heq
        simp only [intercalateSlash] at heq
        simp only [if_true] at heq
        rw [heq]
        exact ⟨by decide, by decide⟩
      · have hmem2 : ∀ x ∈ dds ++ rest, x ≠ [] := by
          intro x hx
          rcases List.mem_append.mp hx with h' | h'
          · rw [hdds x h']; simp [ddComp]
          · exact (hrest x h').1
        have hqne := intercalateSlash_ne_nil (dds ++ rest) hl hmem2
        rw [if_neg hqne] at heq
        have hfix := normpath_fix_rel dds rest hl hdds hrest
        rw [heq]
        exact ⟨hfix.1, hfix.2⟩
    | true =>
      have hddsnil := hinit hab
      rw [hab] at heq
      rw [hddsnil] at heq
      simp only [if_true, List.nil_append] at heq
      cases hds : dslash p with
      | false =>
        rw [hds] at heq
        simp only [Bool.false_eq_true, if_false, List.singleton_append] at heq
        rw [if_neg (by simp)] at heq
        by_cases hrl : rest = []
        · rw [hrl] at heq
          simp only [intercalateSlash] at heq
          rw [heq]
          exact ⟨by decide, by decide⟩
        · rw [heq]
          exact ⟨by simp [isabs], normpath_fix_abs1 rest hrl hrest⟩
      | true =>
        rw [hds] at heq
        simp only [if_true] at heq
        rw [if_neg (by simp)] at heq
        by_cases hrl : rest = []
        · rw [hrl] at heq
          simp only [intercalateSlash, List.append_nil] at heq
          rw [heq]
          exact ⟨by decide, by decide⟩
        · rw [heq]
          constructor
          · simp [isabs]
          · exact normpath_fix_abs2 rest hrl hrest

/-- `normpath` preserves absoluteness. -/
theorem isabs_normpath (p : PStr) : isabs (normpath p) = isabs p :=
  (normpath_main p).1

/-- `normpath` is idempotent: its outputs are exactly the normalized
paths. -/
theorem normpath_idem (p : PStr) : normpath (normpath p) = normpath p :=
  (normpath_main p).2

theorem isabs_append (a b : PStr) (ha : a ≠ []) : isabs (a ++ b) = isabs a := by
  cases a with
  | nil => exact absurd rfl ha
  | cons c t => rfl

theorem isabs_ne_nil (a : PStr) (ha : isabs a = true) : a ≠ [] := by
  intro h; rw [h] at ha; simp [isabs] at ha

theorem isabs_joinPath (a b : PStr) (ha : isabs a = true) :
    isabs (joinPath a b) = true := by
  have hane : a ≠ [] := isabs_ne_nil a ha
  unfold joinPath
  split_ifs with h1 h2
  · exact h1
  · rw [isabs_append a b hane]; exact ha
  · rw [isabs_append a ('/' :: b) hane]; exact ha

theorem rfind_slash_of_abs (p : PStr) (h : isabs p = true) :
    ∃ i, rfindChar '/' p = some i := by
  cases p with
  | nil => simp [isabs] at h
  | cons c t =>
    have hc : c = '/' := by simpa [isabs] using h
    cases hr : rfindChar '/' t with
    | some j => exact ⟨j + 1, by unfold rfindChar; rw [hr]⟩
    | none => exact ⟨0, by unfold rfindChar; rw [hr, if_pos hc]⟩

theorem rstripSlash_spec (q : PStr) :
    q = rstripSlash q ++ (q.reverse.takeWhile (fun c => c = '/')).reverse := by
  unfold rstripSlash
  conv_lhs => rw [← List.reverse_reverse q,
    ← List.takeWhile_append_dropWhile (p := fun c => decide (c = '/')) (l := q.reverse)]
  rw [List.reverse_append]

theorem dirname_abs (p : PStr) (h : isabs p = true) :
    isabs (dirname p) = true := by
  obtain ⟨i, hi⟩ := rfind_slash_of_abs p h
  unfold dirname
  rw [hi]
  dsimp only []
  have htake : isabs (p.take (i + 1)) = true := by
    cases p with
    | nil => simp [isabs] at h
    | cons c t =>
      have hc : c = '/' := by simpa [isabs] using h
      simp [List.take, isabs, hc]
  split_ifs with hcond
  · have hne : rstripSlash (p.take (i + 1)) ≠ [] := by
      intro hnil
      have hspec := rstripSlash_spec (p.take (i + 1))
      rw [hnil] at hspec
      simp only [List.nil_append] at hspec
      have hall : (p.take (i + 1)).all (fun c => c = '/') = true := by
        rw [List.all_eq_true]
        intro c hc2
        rw [hspec] at hc2
        have hc3 := List.mem_reverse.mp hc2
        have := List.mem_takeWhile_imp hc3
        simpa using this
      exact hcond.2 hall
    have hspec := rstripSlash_spec (p.take (i + 1))
    cases hrs : rstripSlash (p.take (i + 1)) with
    | nil => exact absurd hrs hne
    | cons r0 rt =>
      rw [hrs] at hspec
      cases hpt : p.take (i + 1) with
      | nil => rw [hpt] at htake; simp [isabs] at htake
      | cons q0 qt =>
        rw [hpt] at hspec htake
        have hq0 : (q0 = '/') = True := by
          simp [isabs] at htake; simp [htake]
        rw [List.cons_append] at hspec
        injection hspec with h3 h4
        rw [← h3]
        simp [isabs, hq0]
  · exact htake

/-! ## C2 and C3: path resolution and the form of `external_path` -/

/-- For a non-embedded clip with a truthy external path, the validation
branch taken is the filesystem check. -/
theorem clipInvalidReason_external (fs : FS) (c : MediaClip) (p : PStr)
    (hemb : c.is_embedded = false) (hpath : c.external_path = some p) (hp : p ≠ []) :
    clipInvalidReason fs c =
      (if ¬ fs.pathExists p then some (notFoundMsg p)
       else if ¬ fs.isFile p then some (notFileMsg p) else none) := by
  have ht : pyTruthy (some p) = true := by
    cases p with
    | nil => exact absurd rfl hp
    | cons a t => rfl
  unfold clipInvalidReason
  rw [hemb, hpath, ht]
  simp

/-- A source mob whose descriptor exposes both a locator path and an
essence field: the walker classifies it embedded *and* discovers a path. -/
def mobC2 : PySourceMob :=
  { descriptor := some
      { locator := some (some { path := some ("media/a.wav".toList), url_string := none })
        hasEssenceField := true } }

/-- The clip such a source produces after path resolution against
`/proj/show.aaf`. -/
def clipC2 : MediaClip :=
  { name := "a.wav".toList, clip_id := some ("mob_c2".toList), is_embedded := true,
    external_path := some ("/proj/media/a.wav".toList) }

/-- C2 (amended): a relative locator path `media/a.wav` in a container at
`/proj/show.aaf` resolves to `/proj/media/a.wav`; when that file does not
exist and the clip is not classified embedded, validation marks it invalid
with the not-found message, which contains the resolved path. -/
theorem claim_C2_resolution_and_missing :
    (∀ cwd : PStr, isabs cwd = true →
      resolveExternalPath cwd ("/proj/show.aaf".toList) ("media/a.wav".toList)
        = "/proj/media/a.wav".toList)
    ∧ (∀ (fs : FS) (c : MediaClip),
        c.is_embedded = false →
        c.external_path = some ("/proj/media/a.wav".toList) →
        fs.pathExists ("/proj/media/a.wav".toList) = false →
        (validateClip fs c).is_valid = false
        ∧ (validateClip fs c).error_message
            = some (notFoundMsg ("/proj/media/a.wav".toList))
        ∧ ("/proj/media/a.wav".toList : PStr) <:+ notFoundMsg ("/proj/media/a.wav".toList)) := by
  constructor
  · intro cwd h
    unfold resolveExternalPath
    have habs : abspath cwd ("/proj/show.aaf".toList) = "/proj/show.aaf".toList := by
      unfold abspath
      rw [if_pos (by decide)]
      decide
    rw [habs]
    decide
  · intro fs c hemb hpath hex
    have hreason : clipInvalidReason fs c
        = some (notFoundMsg ("/proj/media/a.wav".toList)) := by
      rw [clipInvalidReason_external fs c ("/proj/media/a.wav".toList) hemb hpath (by decide)]
      rw [hex]
      simp
    have hval : validateClip fs c
        = { c with is_valid := false,
                   error_message := some (notFoundMsg ("/proj/media/a.wav".toList)) } := by
      unfold validateClip
      rw [hreason]
    exact ⟨by rw [hval], by rw [hval], by decide⟩

theorem claim_C2_witness :
    resolveExternalPath ("/".toList) ("/proj/show.aaf".toList) ("media/a.wav".toList)
      = "/proj/media/a.wav".toList
    ∧ (validateClip fsEmpty clipMissingSample).is_valid = false
    ∧ (validateClip fsEmpty clipMissingSample).error_message
        = some (notFoundMsg ("/proj/media/a.wav".toList)) :=
  ⟨claim_C2_resolution_and_missing.1 ("/".toList) (by decide),
   (claim_C2_resolution_and_missing.2 fsEmpty clipMissingSample (by decide) (by decide) rfl).1,
   (claim_C2_resolution_and_missing.2 fsEmpty clipMissingSample (by decide) (by decide) rfl).2.1⟩

/-- C2 counterexample to the claim as stated: the walker can discover the
relative path `media/a.wav` on a source it also classifies embedded
(locator and essence field both present); the resolved path is carried on
the clip, the file is missing, and yet validation leaves the clip valid
with no error message. -/
theorem claim_C2_counterexample :
    classifyEmbeddedExternal mobC2 = (true, some ("media/a.wav".toList))
    ∧ resolveExternalPath ("/".toList) ("/proj/show.aaf".toList) ("media/a.wav".toList)
        = "/proj/media/a.wav".toList
    ∧ fsEmpty.pathExists ("/proj/media/a.wav".toList) = false
    ∧ clipC2.is_embedded = true
    ∧ clipC2.external_path = some ("/proj/media/a.wav".toList)
    ∧ (validateClip fsEmpty clipC2).is_valid = true
    ∧ (validateClip fsEmpty clipC2).error_message = none := by
  refine ⟨by decide, by decide, rfl, by decide, by decide, by decide, by decide⟩

theorem aggressiveLoop_abs (base : PStr) (hbase : isabs base = true) :
    ∀ (ms : List (List PStr)) (n : Nat) (c : MediaClip),
      c ∈ aggressiveLoop base ms n →
      ∃ p, c.external_path = some p ∧ isabs p = true := by
  intro ms
  induction ms with
  | nil => intro n c hc; simp [aggressiveLoop] at hc
  | cons m rest ih =>
    intro n c hc
    unfold aggressiveLoop at hc
    dsimp only [] at hc
    split at hc
    · simp at hc
    · cases h : aggressiveCandOfMatch m with
      | none => rw [h] at hc; exact ih _ _ hc
      | some path_str =>
        rw [h] at hc
        dsimp only [] at hc
        rcases List.mem_cons.mp hc with h2 | h2
        · subst h2
          by_cases hab : isabs path_str = true
          · exact ⟨path_str, by simp [hab], hab⟩
          · exact ⟨joinPath base path_str, by simp [hab],
              isabs_joinPath base path_str hbase⟩
        · exact ih _ _ h2

/-- C3 (amended): paths emitted by the legacy scanner's resolution are
always normalized (`normpath` fixed points) but the literal fallback keeps
the (normalized) relative candidate when the joined path does not exist;
the graph walker's resolution yields absolute normalized paths (given an
absolute working directory); the aggressive fallback yields absolute
(given an absolute base directory) but not necessarily normalized paths;
and the walker can classify a clip embedded while still attaching an
external path. -/
theorem claim_C3_external_path_form :
    (∀ (fs : FS) (base cand : PStr),
      normpath (resolveOmfCandidateM1 fs base cand) = resolveOmfCandidateM1 fs base cand)
    ∧ (∀ (fs : FS) (base cand : PStr),
      normpath (resolveOmfCandidateM23 fs base cand) = resolveOmfCandidateM23 fs base cand)
    ∧ (∀ (fs : FS) (base cand : PStr), isabs cand = false →
        fs.pathExists (joinPath base cand) = false →
        fs.pathExists (joinPath base (normpath cand)) = false →
        resolveOmfCandidateM1 fs base cand = normpath cand)
    ∧ (∀ cwd aafPath raw : PStr, isabs cwd = true →
        isabs (resolveExternalPath cwd aafPath raw) = true
        ∧ normpath (resolveExternalPath cwd aafPath raw)
            = resolveExternalPath cwd aafPath raw)
    ∧ (∀ (base : PStr) (ms : List (List PStr)), isabs base = true →
        ∀ c ∈ aggressiveOmfParse base ms,
          ∃ p, c.external_path = some p ∧ isabs p = true)
    ∧ ((aggressiveOmfParse ("/proj".toList) [["media//x.wav".toList]]).map
          (fun c => c.external_path) = [some ("/proj/media//x.wav".toList)]
        ∧ normpath ("/proj/media//x.wav".toList) ≠ "/proj/media//x.wav".toList)
    ∧ classifyEmbeddedExternal mobC2 = (true, some ("media/a.wav".toList)) := by
  refine ⟨?_, ?_, ?_, ?_, ?_, by decide, by decide⟩
  · intro fs base cand
    unfold resolveOmfCandidateM1
    dsimp only []
    split_ifs <;> exact normpath_idem _
  · intro fs base cand
    unfold resolveOmfCandidateM23
    dsimp only []
    split_ifs <;> exact normpath_idem _
  · intro fs base cand h1 h2 h3
    simp [resolveOmfCandidateM1, h1, h2, h3]
  · intro cwd aafPath raw hcwd
    constructor
    · unfold resolveExternalPath
      rw [isabs_normpath]
      split_ifs with h
      · exact h
      · refine isabs_joinPath _ raw (dirname_abs _ ?_)
        unfold abspath
        rw [isabs_normpath]
        split_ifs with h2
        · exact h2
        · exact isabs_joinPath cwd aafPath hcwd
    · exact normpath_idem _
  · intro base ms hbase c hc
    exact aggressiveLoop_abs base hbase ms 1 c hc

theorem claim_C3_witness :
    resolveOmfCandidateM1 fsEmpty ("/proj".toList) ("media/a.wav".toList)
      = normpath ("media/a.wav".toList)
    ∧ isabs (resolveExternalPath ("/".toList) ("/proj/show.aaf".toList)
        ("media/a.wav".toList)) = true
    ∧ normpath (resolveExternalPath ("/".toList) ("/proj/show.aaf".toList)
        ("media/a.wav".toList))
      = resolveExternalPath ("/".toList) ("/proj/show.aaf".toList) ("media/a.wav".toList) :=
  ⟨claim_C3_external_path_form.2.2.1 fsEmpty ("/proj".toList) ("media/a.wav".toList)
     (by decide) rfl rfl,
   (claim_C3_external_path_form.2.2.2.1 ("/".toList) ("/proj/show.aaf".toList)
     ("media/a.wav".toList) (by decide)).1,
   (claim_C3_external_path_form.2.2.2.1 ("/".toList) ("/proj/show.aaf".toList)
     ("media/a.wav".toList) (by decide)).2⟩

/-- C3 counterexample to the claim as stated: when `/proj/media/a.wav`
does not exist, the scanner's literal fallback emits the relative path
`media/a.wav`, which the legacy parser stores verbatim as a clip's
`external_path` — not an absolute path. -/
theorem claim_C3_counterexample :
    resolveOmfCandidateM1 fsEmpty ("/proj".toList) ("media/a.wav".toList)
      = "media/a.wav".toList
    ∧ isabs ("media/a.wav".toList) = false
    ∧ (omfClipsFromPaths ["media/a.wav".toList] [] 1).map (fun c => c.external_path)
      = [some ("media/a.wav".toList)] := by
  refine ⟨by decide, by decide, by decide⟩

/-! ## C6: exception policy of the legacy scanner -/

theorem collectScanPaths_append_exc (fs : FS) (base : PStr) :
    ∀ (pre post : List ScanEvent), ScanEvent.exc ∉ pre →
      collectScanPaths fs base (pre ++ ScanEvent.exc :: post)
        = collectScanPaths fs base pre := by
  intro pre
  induction pre with
  | nil => intro post _; rfl
  | cons e t ih =>
    intro post hpre
    cases e with
    | exc => exact absurd (List.mem_cons_self _ _) hpre
    | found m cand =>
      simp only [List.cons_append, collectScanPaths, List.append_eq]
      rw [ih post (fun hmem => hpre (List.mem_cons_of_mem _ hmem))]

/-- C6 (amended): an exception anywhere in the scanning body never
propagates; the scan returns the deduplicated paths collected before the
first exception — the empty list when the exception comes first, but the
already-collected (partial) results otherwise. -/
theorem claim_C6_scan_exception_policy :
    (∀ (fs : FS) (base : PStr) (post : List ScanEvent),
      extractOmfFilePaths fs base (ScanEvent.exc :: post) = [])
    ∧ (∀ (fs : FS) (base : PStr) (pre post : List ScanEvent),
        ScanEvent.exc ∉ pre →
        extractOmfFilePaths fs base (pre ++ ScanEvent.exc :: post)
          = extractOmfFilePaths fs base pre) := by
  constructor
  · intro fs base post; rfl
  · intro fs base pre post hpre
    unfold extractOmfFilePaths
    rw [collectScanPaths_append_exc fs base pre post hpre]

theorem claim_C6_witness :
    extractOmfFilePaths fsEmpty ("/proj".toList)
        ([ScanEvent.found ScanMethod.m1 ("media/a.wav".toList)] ++ ScanEvent.exc :: [])
      = extractOmfFilePaths fsEmpty ("/proj".toList)
          [ScanEvent.found ScanMethod.m1 ("media/a.wav".toList)]
    ∧ extractOmfFilePaths fsEmpty ("/proj".toList) (ScanEvent.exc :: []) = [] :=
  ⟨claim_C6_scan_exception_policy.2 fsEmpty ("/proj".toList)
     [ScanEvent.found ScanMethod.m1 ("media/a.wav".toList)] [] (by decide),
   claim_C6_scan_exception_policy.1 fsEmpty ("/proj".toList) []⟩

/-- C6 counterexample to the claim as stated: an exception raised after
one path was already found does **not** degrade the scan to an empty
result — the partial result survives the `except` clause. -/
theorem claim_C6_counterexample :
    extractOmfFilePaths fsEmpty ("/proj".toList)
        [ScanEvent.found ScanMethod.m1 ("media/a.wav".toList), ScanEvent.exc]
      = ["media/a.wav".toList]
    ∧ (["media/a.wav".toList] : List PStr) ≠ [] := by
  refine ⟨by decide, by decide⟩

/-! ## C8: the OMF timeline approximation -/

theorem omfTimelineLoop_nil (fs : FS) (i : Nat) (cur tot : ℚ) :
    omfTimelineLoop fs [] i cur tot = ([], tot) := rfl

theorem omfTimelineLoop_cons (fs : FS) (c : MediaClip) (rest : List MediaClip)
    (i : Nat) (cur tot : ℚ) :
    omfTimelineLoop fs (c :: rest) i cur tot
      = (omfTimelineClip fs c i cur ::
          (omfTimelineLoop fs rest (i + 1)
            (if (i + 1) % 10 = 0 then 0 else cur + omfEstimatedDuration fs c)
            (max tot (cur + omfEstimatedDuration fs c))).1,
         (omfTimelineLoop fs rest (i + 1)
            (if (i + 1) % 10 = 0 then 0 else cur + omfEstimatedDuration fs c)
            (max tot (cur + omfEstimatedDuration fs c))).2) := rfl

theorem omfTimelineLoop_length (fs : FS) :
    ∀ (clips : List MediaClip) (i : Nat) (cur tot : ℚ),
      (omfTimelineLoop fs clips i cur tot).1.length = clips.length := by
  intro clips
  induction clips with
  | nil => intro i cur tot; rfl
  | cons c rest ih =>
    intro i cur tot
    rw [omfTimelineLoop_cons]
    simp [ih]

theorem omfTimelineLoop_get (fs : FS) :
    ∀ (clips : List MediaClip) (j i : Nat) (cur tot : ℚ) (c : MediaClip),
      clips[j]? = some c →
      ∃ tc, (omfTimelineLoop fs clips i cur tot).1[j]? = some tc
        ∧ tc.track_index = (i + j) / 10
        ∧ tc.timeline_end - tc.timeline_start = omfEstimatedDuration fs c
        ∧ (j = 0 → tc.timeline_start = cur) := by
  intro clips
  induction clips with
  | nil => intro j i cur tot c hc; simp at hc
  | cons c0 rest ih =>
    intro j i cur tot c hc
    rw [omfTimelineLoop_cons]
    cases j with
    | zero =>
      simp only [List.getElem?_cons_zero, Option.some_inj] at hc
      subst hc
      refine ⟨omfTimelineClip fs c0 i cur, by simp, by simp [omfTimelineClip], ?_, fun _ => rfl⟩
      show (cur + omfEstimatedDuration fs c0) - cur = omfEstimatedDuration fs c0
      ring
    | succ k =>
      simp only [List.getElem?_cons_succ] at hc ⊢
      obtain ⟨tc, h1, h2, h3, _⟩ := ih k (i + 1) _ _ c hc
      refine ⟨tc, h1, ?_, h3, fun hk => absurd hk (Nat.succ_ne_zero k)⟩
      rw [h2]
      congr 1
      omega

theorem omfTimelineLoop_head_start (fs : FS) (clips : List MediaClip) (i : Nat)
    (cur tot : ℚ) (tc : MediaClip)
    (h : (omfTimelineLoop fs clips i cur tot).1[0]? = some tc) :
    tc.timeline_start = cur := by
  cases clips with
  | nil => rw [omfTimelineLoop_nil] at h; simp at h
  | cons c0 rest =>
    rw [omfTimelineLoop_cons] at h
    simp only [List.getElem?_cons_zero, Option.some_inj] at h
    rw [← h]
    rfl

theorem omfTimelineLoop_consecutive (fs : FS) :
    ∀ (clips : List MediaClip) (j i : Nat) (cur tot : ℚ) (tc tc2 : MediaClip),
      (omfTimelineLoop fs clips i cur tot).1[j + 1]? = some tc →
      (omfTimelineLoop fs clips i cur tot).1[j]? = some tc2 →
      tc.timeline_start = (if (i + j + 1) % 10 = 0 then 0 else tc2.timeline_end) := by
  intro clips
  induction clips with
  | nil =>
    intro j i cur tot tc tc2 h1 h2
    rw [omfTimelineLoop_nil] at h1
    simp at h1
  | cons c0 rest ih =>
    intro j i cur tot tc tc2 h1 h2
    rw [omfTimelineLoop_cons] at h1 h2
    cases j with
    | zero =>
      simp only [List.getElem?_cons_succ, List.getElem?_cons_zero, Option.some_inj] at h1 h2
      have hstart := omfTimelineLoop_head_start fs rest (i + 1) _ _ tc h1
      rw [hstart, ← h2]
      rfl
    | succ k =>
      simp only [List.getElem?_cons_succ] at h1 h2
      have hrec := ih k (i + 1) _ _ tc tc2 h1 h2
      have harith : i + 1 + k + 1 = i + (k + 1) + 1 := by omega
      rw [harith] at hrec
      exact hrec

theorem extractTimelineClipsFromOmf_fst (fs : FS) (clips : List MediaClip) :
    (extractTimelineClipsFromOmf fs clips).1 = (omfTimelineLoop fs clips 0 0 0).1 := by
  unfold extractTimelineClipsFromOmf
  dsimp only []
  split <;> rfl

theorem omfClipsFromPaths_not_embedded :
    ∀ (paths processed : List PStr) (n : Nat) (c : MediaClip),
      c ∈ omfClipsFromPaths paths processed n → c.is_embedded = false := by
  intro paths
  induction paths with
  | nil => intro processed n c hc; simp [omfClipsFromPaths] at hc
  | cons p rest ih =>
    intro processed n c hc
    unfold omfClipsFromPaths at hc
    dsimp only [] at hc
    split at hc
    · split at hc
      · rcases List.mem_cons.mp hc with h | h
        · subst h; rfl
        · exact ih _ _ _ h
      · exact ih _ _ _ hc
    · exact ih _ _ _ hc

/-- C8 (amended): in the legacy timeline approximation, clip `j` (0-based,
discovery order) gets `track_index = j / 10`; its duration is
`max 1 (size / 192000)` when it has a truthy external path that exists on
disk, and exactly 5 seconds otherwise — the `is_embedded` flag is **not**
consulted; clips sit back-to-back (each track starts at time 0 at every
10-clip boundary).  The legacy parser only emits non-embedded clips, so
the embedded case cannot arise in the legacy pipeline. -/
theorem claim_C8_omf_timeline :
    (∀ (fs : FS) (clips : List MediaClip) (j : Nat) (c tc : MediaClip),
      clips[j]? = some c →
      (extractTimelineClipsFromOmf fs clips).1[j]? = some tc →
      tc.track_index = j / 10
      ∧ tc.timeline_end - tc.timeline_start = omfEstimatedDuration fs c
      ∧ (j % 10 = 0 → tc.timeline_start = 0))
    ∧ (∀ (fs : FS) (clips : List MediaClip) (j : Nat) (tc tc2 : MediaClip),
        (extractTimelineClipsFromOmf fs clips).1[j + 1]? = some tc →
        (extractTimelineClipsFromOmf fs clips).1[j]? = some tc2 →
        (j + 1) % 10 ≠ 0 →
        tc.timeline_start = tc2.timeline_end)
    ∧ (∀ (fs : FS) (c : MediaClip),
        pyTruthy c.external_path = true →
        fs.pathExists (c.external_path.getD []) = true →
        omfEstimatedDuration fs c
          = max 1 ((fs.getsize (c.external_path.getD []) : ℚ) / 192000))
    ∧ (∀ (fs : FS) (c : MediaClip),
        pyTruthy c.external_path = false ∨ fs.pathExists (c.external_path.getD []) = false →
        omfEstimatedDuration fs c = 5)
    ∧ (∀ (paths processed : List PStr) (n : Nat),
        ∀ c ∈ omfClipsFromPaths paths processed n, c.is_embedded = false) := by
  refine ⟨?_, ?_, ?_, ?_, omfClipsFromPaths_not_embedded⟩
  · intro fs clips j c tc hc htc
    rw [extractTimelineClipsFromOmf_fst] at htc
    obtain ⟨tc', h1, h2, h3, h4⟩ := omfTimelineLoop_get fs clips j 0 0 0 c hc
    have he : tc' = tc := Option.some_inj.mp (h1.symm.trans htc)
    subst he
    refine ⟨by simpa using h2, h3, ?_⟩
    intro hmod
    cases j with
    | zero => exact h4 rfl
    | succ k =>
      have hlen : k + 1 < clips.length := (List.getElem?_eq_some.mp hc).1
      have hlen2 : k < (omfTimelineLoop fs clips 0 0 0).1.length := by
        rw [omfTimelineLoop_length]; omega
      obtain ⟨tc2, htc2⟩ : ∃ tc2, (omfTimelineLoop fs clips 0 0 0).1[k]? = some tc2 :=
        ⟨_, List.getElem?_eq_getElem hlen2⟩
      have hcons := omfTimelineLoop_consecutive fs clips k 0 0 0 tc' tc2 h1 htc2
      have h0 : (0 : Nat) + k + 1 = k + 1 := by omega
      rw [h0] at hcons
      rw [hcons, if_pos hmod]
  · intro fs clips j tc tc2 h1 h2 hmod
    rw [extractTimelineClipsFromOmf_fst] at h1 h2
    have hcons := omfTimelineLoop_consecutive fs clips j 0 0 0 tc tc2 h1 h2
    have h0 : (0 : Nat) + j + 1 = j + 1 := by omega
    rw [h0] at hcons
    rw [hcons, if_neg hmod]
  · intro fs c h1 h2
    unfold omfEstimatedDuration
    rw [if_pos ⟨h1, h2⟩]
  · intro fs c h
    have hn : ¬ (pyTruthy c.external_path = true
        ∧ fs.pathExists (c.external_path.getD []) = true) := by
      rintro ⟨ha, hb⟩
      rcases h with h' | h'
      · rw [h'] at ha; exact Bool.noConfusion ha
      · rw [h'] at hb; exact Bool.noConfusion hb
    unfold omfEstimatedDuration
    rw [if_neg hn]

/-- A validation clip with no external path, as the legacy timeline sees
it when the file reference is unresolved. -/
def clipNoPathSample : MediaClip := { name := "Clip 1".toList }

theorem claim_C8_witness :
    (extractTimelineClipsFromOmf fsEmpty [clipNoPathSample]).1[0]?
        = some (omfTimelineClip fsEmpty clipNoPathSample 0 0)
    ∧ (omfTimelineClip fsEmpty clipNoPathSample 0 0).track_index = 0 / 10
    ∧ (omfTimelineClip fsEmpty clipNoPathSample 0 0).timeline_end
        - (omfTimelineClip fsEmpty clipNoPathSample 0 0).timeline_start
      = omfEstimatedDuration fsEmpty clipNoPathSample
    ∧ (omfTimelineClip fsEmpty clipNoPathSample 0 0).timeline_start = 0
    ∧ omfEstimatedDuration fsEmpty clipNoPathSample = 5 :=
  ⟨by with_unfolding_all decide,
   (claim_C8_omf_timeline.1 fsEmpty [clipNoPathSample] 0 clipNoPathSample
     (omfTimelineClip fsEmpty clipNoPathSample 0 0) (by decide)
     (by with_unfolding_all decide)).1,
   (claim_C8_omf_timeline.1 fsEmpty [clipNoPathSample] 0 clipNoPathSample
     (omfTimelineClip fsEmpty clipNoPathSample 0 0) (by decide)
     (by with_unfolding_all decide)).2.1,
   (claim_C8_omf_timeline.1 fsEmpty [clipNoPathSample] 0 clipNoPathSample
     (omfTimelineClip fsEmpty clipNoPathSample 0 0) (by decide)
     (by with_unfolding_all decide)).2.2 (by decide),
   claim_C8_omf_timeline.2.2.2.1 fsEmpty clipNoPathSample (Or.inl (by decide))⟩

/-- A filesystem on which `/x.wav` exists as an empty regular file. -/
def fsC8 : FS :=
  { pathExists := fun p => p = "/x.wav".toList,
    isFile := fun p => p = "/x.wav".toList,
    getsize := fun _ => 0 }

/-- An embedded clip that nevertheless carries an accessible external
path (producible by the graph walker; see `mobC2`). -/
def clipC8 : MediaClip :=
  { name := "x".toList, is_embedded := true, external_path := some ("/x.wav".toList) }

/-- C8 counterexample to the claim as stated: an embedded clip whose
external path exists (size 0) gets the size-based duration
`max 1 (0 / 192000) = 1`, not the flat 5 seconds the claim promises for
embedded clips. -/
theorem claim_C8_counterexample :
    clipC8.is_embedded = true
    ∧ ((extractTimelineClipsFromOmf fsC8 [clipC8]).1.map
        (fun tc => tc.timeline_end - tc.timeline_start)) = [1]
    ∧ (1 : ℚ) ≠ 5 := by
  refine ⟨by decide, by with_unfolding_all decide, by decide⟩
